import Mathlib

/-!
Verification of the Intender extension's intention-matching engine.

This development shallowly embeds the core of the Intender browser
extension (URL normalization, scope decomposition, language-aware
matching, the specificity-sorted intention index, the fuzzy phrase
matcher, and the background inactivity engine) and proves or refutes
the specified properties against that embedding.

JavaScript strings are modelled as `List Char`; JS `Map`s as
association lists; the browser event handlers of `background.ts` as
pure state-transition functions.  Code that lives in third-party
libraries (talisman's Damerau-Levenshtein metric, `normalize-url`,
`tldts`, the ISO-639-1 / ISO-3166-1 corpora) is modelled from the
specification, as flagged in the corresponding doc comments.
-/

set_option maxRecDepth 20000

namespace Intender

/-- Character-list model of a JavaScript string. -/
abbrev Str := List Char

/-- Convert a Lean string literal into the list-of-characters model. -/
def str (s : String) : Str := s.data

/-- Whitespace characters recognized by JavaScript `String.prototype.trim`. -/
def isJsWhitespace (c : Char) : Bool :=
  c = ' ' || c = '\t' || c = '\n' || c = '\r' || c = '\x0b' ||
  c = '\x0c' || c = '\u00A0' || c = '\uFEFF'

/-- Model of JavaScript `String.prototype.trim`: drop whitespace from both ends. -/
def jsTrim (s : Str) : Str :=
  ((s.dropWhile isJsWhitespace).reverse.dropWhile isJsWhitespace).reverse

/-- Modelled from the spec: the edit-distance metric of
`talisman/metrics/damerau-levenshtein` (imported by
`src/components/fuzzy-matching.ts` but not part of this repository).
`dlFuel x y fuel i j` is the distance between the first `i` characters
of `x` and the first `j` characters of `y`, by the standard dynamic
programming recurrence supporting insertion, deletion, substitution and
adjacent transposition.  The `fuel` argument only drives structural
termination; it is irrelevant to the value whenever `i + j ≤ fuel`. -/
def dlFuel (x y : Str) : Nat → Nat → Nat → Nat
  | _, 0, j => j
  | _, i+1, 0 => i + 1
  | 0, _+1, _+1 => 0
  | f+1, i+1, j+1 =>
    let cost : Nat := if x[i]? = y[j]? then 0 else 1
    let base := Nat.min (dlFuel x y f i (j+1) + 1)
      (Nat.min (dlFuel x y f (i+1) j + 1) (dlFuel x y f i j + cost))
    if 1 ≤ i ∧ 1 ≤ j ∧ x[i]? = y[j-1]? ∧ x[i-1]? = y[j]? then
      Nat.min base (dlFuel x y f (i-1) (j-1) + 1)
    else base

/-- Modelled from the spec: full Damerau-Levenshtein distance between two
strings (minimum number of insertions, deletions, substitutions and
adjacent transpositions, by the prefix dynamic program). -/
def damerauLevenshtein (x y : Str) : Nat :=
  dlFuel x y (x.length + y.length) x.length y.length

/-- Embeds `fuzzyMatch` from `src/components/fuzzy-matching.ts`: reject
blank input or blank expected phrase, otherwise accept iff the distance
between the full strings is at most `maxDistance`. -/
def fuzzyMatch (input expected : Str) (maxDistance : Nat) : Bool :=
  if (jsTrim input).isEmpty || (jsTrim expected).isEmpty then false
  else decide (damerauLevenshtein input expected ≤ maxDistance)

/-- Embeds `fuzzyPartialMatch` from `src/components/fuzzy-matching.ts`:
like `fuzzyMatch` but the input is compared against the prefix of the
expected phrase truncated to the input's length. -/
def fuzzyPartialMatch (input expected : Str) (maxDistance : Nat) : Bool :=
  if (jsTrim input).isEmpty || (jsTrim expected).isEmpty then false
  else decide (damerauLevenshtein input (expected.take input.length) ≤ maxDistance)

/-- Modelled from the spec: the ISO 639-1 two-letter language codes
validated by the `iso-639-1` library (an external dependency of
`src/components/intention.ts`). -/
def iso6391Codes : List Str :=
  (["aa", "ab", "ae", "af", "ak", "am", "an", "ar", "as", "av", "ay", "az",
    "ba", "be", "bg", "bh", "bi", "bm", "bn", "bo", "br", "bs",
    "ca", "ce", "ch", "co", "cr", "cs", "cu", "cv", "cy",
    "da", "de", "dv", "dz", "ee", "el", "en", "eo", "es", "et", "eu",
    "fa", "ff", "fi", "fj", "fo", "fr", "fy",
    "ga", "gd", "gl", "gn", "gu", "gv",
    "ha", "he", "hi", "ho", "hr", "ht", "hu", "hy", "hz",
    "ia", "id", "ie", "ig", "ii", "ik", "io", "is", "it", "iu",
    "ja", "jv", "ka", "kg", "ki", "kj", "kk", "kl", "km", "kn", "ko", "kr",
    "ks", "ku", "kv", "kw", "ky",
    "la", "lb", "lg", "li", "ln", "lo", "lt", "lu", "lv",
    "mg", "mh", "mi", "mk", "ml", "mn", "mr", "ms", "mt", "my",
    "na", "nb", "nd", "ne", "ng", "nl", "nn", "no", "nr", "nv", "ny",
    "oc", "oj", "om", "or", "os", "pa", "pi", "pl", "ps", "pt",
    "qu", "rm", "rn", "ro", "ru", "rw",
    "sa", "sc", "sd", "se", "sg", "si", "sk", "sl", "sm", "sn", "so", "sq",
    "sr", "ss", "st", "su", "sv", "sw",
    "ta", "te", "tg", "th", "ti", "tk", "tl", "tn", "to", "tr", "ts", "tt",
    "tw", "ty", "ug", "uk", "ur", "uz",
    "ve", "vi", "vo", "wa", "wo", "xh", "yi", "yo", "za", "zh", "zu"]).map str

/-- Modelled from the spec: the ISO 3166-1 alpha-2 country codes returned
by `i18n-iso-countries` (`countries.getAlpha2Codes()`), uppercase as in
the library. -/
def countryAlpha2Codes : List Str :=
  (["AD", "AE", "AF", "AG", "AI", "AL", "AM", "AO", "AQ", "AR", "AS", "AT",
    "AU", "AW", "AX", "AZ",
    "BA", "BB", "BD", "BE", "BF", "BG", "BH", "BI", "BJ", "BL", "BM", "BN",
    "BO", "BQ", "BR", "BS", "BT", "BV", "BW", "BY", "BZ",
    "CA", "CC", "CD", "CF", "CG", "CH", "CI", "CK", "CL", "CM", "CN", "CO",
    "CR", "CU", "CV", "CW", "CX", "CY", "CZ",
    "DE", "DJ", "DK", "DM", "DO", "DZ",
    "EC", "EE", "EG", "EH", "ER", "ES", "ET",
    "FI", "FJ", "FK", "FM", "FO", "FR",
    "GA", "GB", "GD", "GE", "GF", "GG", "GH", "GI", "GL", "GM", "GN", "GP",
    "GQ", "GR", "GS", "GT", "GU", "GW", "GY",
    "HK", "HM", "HN", "HR", "HT", "HU",
    "ID", "IE", "IL", "IM", "IN", "IO", "IQ", "IR", "IS", "IT",
    "JE", "JM", "JO", "JP",
    "KE", "KG", "KH", "KI", "KM", "KN", "KP", "KR", "KW", "KY", "KZ",
    "LA", "LB", "LC", "LI", "LK", "LR", "LS", "LT", "LU", "LV", "LY",
    "MA", "MC", "MD", "ME", "MF", "MG", "MH", "MK", "ML", "MM", "MN", "MO",
    "MP", "MQ", "MR", "MS", "MT", "MU", "MV", "MW", "MX", "MY", "MZ",
    "NA", "NC", "NE", "NF", "NG", "NI", "NL", "NO", "NP", "NR", "NU", "NZ",
    "OM", "PA", "PE", "PF", "PG", "PH", "PK", "PL", "PM", "PN", "PR", "PS",
    "PT", "PW", "PY", "QA", "RE", "RO", "RS", "RU", "RW",
    "SA", "SB", "SC", "SD", "SE", "SG", "SH", "SI", "SJ", "SK", "SL", "SM",
    "SN", "SO", "SR", "SS", "ST", "SV", "SX", "SY", "SZ",
    "TC", "TD", "TF", "TG", "TH", "TJ", "TK", "TL", "TM", "TN", "TO", "TR",
    "TT", "TV", "TW", "TZ",
    "UA", "UG", "UM", "US", "UY", "UZ",
    "VA", "VC", "VE", "VG", "VI", "VN", "VU",
    "WF", "WS", "YE", "YT", "ZA", "ZM", "ZW"]).map str

/-- Embeds `isLanguageCode` from `src/components/intention.ts` (lines
77-92): a token is a language code if its lowercasing is an ISO 639-1
code, or a `lang-COUNTRY` pair whose parts validate against ISO 639-1
and ISO 3166-1 alpha-2 respectively.  (`countries.isValid` is modelled
on alpha-2 codes, the only shape the matching engine feeds it.) -/
def isLanguageCode (code : Str) : Bool :=
  let lowerCode := code.map Char.toLower
  if iso6391Codes.contains lowerCode then true
  else if lowerCode.contains '-' then
    let lang := lowerCode.takeWhile (· ≠ '-')
    let country := ((lowerCode.dropWhile (· ≠ '-')).drop 1).takeWhile (· ≠ '-')
    iso6391Codes.contains lang && countryAlpha2Codes.contains (country.map Char.toUpper)
  else false

/-- Embeds `isLanguageSuffix` from `src/components/intention.ts` (lines
98-105): the suffix, uppercased, must be a known country code. -/
def isLanguageSuffix (suffix : Str) : Bool :=
  countryAlpha2Codes.contains (suffix.map Char.toUpper)

/-- Embeds `extractLanguageFromPath` from `src/components/intention.ts`
(lines 111-128): if the first path segment (per the regex
`^\/([^\/]+)(\/.*)?$`) is a language code, return it together with the
remaining path, otherwise return the path unchanged. -/
def extractLanguageFromPath (path : Str) : Option Str × Str :=
  match path with
  | '/' :: tail =>
    let firstSegment := tail.takeWhile (· ≠ '/')
    let rest := tail.dropWhile (· ≠ '/')
    if firstSegment.isEmpty then (none, path)
    else if isLanguageCode firstSegment then (some firstSegment, rest)
    else (none, path)
  | _ => (none, path)

/-- Modelled from the spec: a representative fragment of the ICANN public
suffix list consulted by `tldts` (an external dependency of
`src/components/normalized-url.ts`), as label lists. -/
def publicSuffixList : List Str :=
  (["com", "org", "net", "edu", "gov", "io", "se", "de", "fr", "es", "nl",
    "uk", "co.uk", "org.uk", "br", "com.br", "jp", "co.jp"]).map str

/-- Split a string on a separator character (JS `String.prototype.split`,
also the hostname-label split of public-suffix processing). -/
def splitOnChar (sep : Char) : Str → List Str
  | [] => [[]]
  | a :: rest =>
    match splitOnChar sep rest with
    | [] => [[]]
    | r :: rs => if a = sep then [] :: r :: rs else (a :: r) :: rs

/-- Join label lists with dots (inverse of splitting a hostname). -/
def joinLabels (ls : List Str) : Str :=
  List.intercalate [ '.' ] ls

/-- One step of the longest-matching-suffix fold: keep the longer of the
current best and a matching candidate entry. -/
def pslStep (labels : List Str) (best : Option (List Str)) (ps : Str) : Option (List Str) :=
  let psLabels := splitOnChar '.' ps
  if psLabels.isSuffixOf labels then
    match best with
    | none => some psLabels
    | some b => if psLabels.length > b.length then some psLabels else some b
  else best

/-- Find the longest public-suffix-list entry that is a suffix of the
given label list (tldts "longest matching public suffix wins"). -/
def findPublicSuffix (labels : List Str) : Option (List Str) :=
  publicSuffixList.foldl (pslStep labels) none

/-- Characters allowed in a (lowercased) registrable hostname. -/
def isHostChar (c : Char) : Bool :=
  c.isLower || c.isDigit || c = '-' || c = '.'

/-- No two consecutive dots (no empty hostname label). -/
def noDoubleDot : Str → Bool
  | [] => true
  | [_] => true
  | a :: b :: rest => !(a = '.' && b = '.') && noDoubleDot (b :: rest)

/-- Modelled from the spec: "resolves to a public, ICANN-registrable
hostname" — well-formed labels of hostname characters ending in a known
public suffix with at least one label before it (tldts `isIcann` together
with a non-null registrable `domain`). -/
def isValidPublicHost (h : Str) : Bool :=
  !h.isEmpty && h.all isHostChar &&
  decide (h.head? ≠ some '.') && decide (h.getLast? ≠ some '.') && noDoubleDot h &&
  (match findPublicSuffix (splitOnChar '.' h) with
   | some ps => decide (ps.length < (splitOnChar '.' h).length)
   | none => false)

/-- Model of the WHATWG `URL` object as far as the normalizer consumes it:
hostname (already lowercased by the constructor), pathname, and the
query/fragment tail that normalization discards. -/
structure UrlObj where
  host : Str
  path : Str
  tail : Str
deriving DecidableEq

/-- Strip a leading `http://` or `https://` scheme (case-insensitively),
modelling "add a default scheme if absent → strip scheme". -/
def stripScheme (s : Str) : Str :=
  if (str "http://").isPrefixOf (s.map Char.toLower) then s.drop 7
  else if (str "https://").isPrefixOf (s.map Char.toLower) then s.drop 8
  else s

/-- Modelled from the spec: `parseUrlString` from
`src/components/normalized-url.ts` (lines 100-118), whose validation is
delegated to `tldts` and the `URL` constructor.  The input is trimmed, a
scheme is defaulted/stripped, the hostname (up to the first `/`, `?` or
`#`) is lowercased and validated as a public ICANN-registrable hostname,
and the pathname/query/fragment are split off.  Model restrictions:
only `http`/`https` schemes, and paths containing raw whitespace are
rejected (the real `URL` constructor percent-encodes them instead). -/
def parseUrlString (s : Str) : Option UrlObj :=
  let t := jsTrim s
  let u := stripScheme t
  let host := u.takeWhile fun c => !(c = '/' || c = '?' || c = '#')
  let rest := u.dropWhile fun c => !(c = '/' || c = '?' || c = '#')
  let path := rest.takeWhile fun c => !(c = '?' || c = '#')
  let tail := rest.drop path.length
  let hostL := host.map Char.toLower
  if isValidPublicHost hostL && path.all (fun c => !isJsWhitespace c) then
    some { host := hostL, path := path, tail := tail }
  else none

/-- Strip a leading `www.` from a hostname, modelling the guarded
`stripWWW` option of `normalize-url`: the label is removed only when what
remains is not itself `www.`-again and still contains a dot (the
library's hostname-shape regex `^www\.(?!www\.)...\....$`). -/
def stripWww (h : Str) : Str :=
  if (str "www.").isPrefixOf h && !(str "www.").isPrefixOf (h.drop 4) &&
      (h.drop 4).contains '.' then
    h.drop 4
  else h

/-- Drop all trailing slashes (the `removeTrailingSlash` and
`removeSingleSlash` options; §3 requires the normalized form to carry no
trailing slash). -/
def dropTrailingSlashes (s : Str) : Str :=
  (s.reverse.dropWhile (· = '/')).reverse

/-- Modelled from the spec: `normalizeUrl` from
`src/components/normalized-url.ts` (lines 21-32), i.e. `normalize-url`
with `stripProtocol`, `stripWWW`, `removeQueryParameters`, `stripHash`,
`removeTrailingSlash` and `removeSingleSlash`: scheme, query and
fragment are dropped, `www.` is stripped (guarded), the whole string is
lowercased, and trailing slashes are removed. -/
def normalizeUrl (u : UrlObj) : Str :=
  stripWww u.host ++ dropTrailingSlashes (u.path.map Char.toLower)

/-- The full normalization pipeline on a string: parse, then normalize
(the composition used by `parseUrlToScope`, `getDomain` and
`matchesIntentionScopeIgnoringDomain`). -/
def normalizeUrlString (s : Str) : Option Str :=
  (parseUrlString s).map normalizeUrl

/-- Components of a normalized URL, as produced by `toComponents`. -/
structure UrlComponents where
  domain : Str
  publicSuffix : Str
  subdomain : Option Str
  path : Str
deriving DecidableEq

/-- Embeds `toComponents` from `src/components/normalized-url.ts` (lines
37-94), primary arm: split host and path, then decompose the host with
public-suffix-list semantics.  As pinned by the repository's unit tests,
`domain` is the registrable domain *including* the suffix (tldts
`parse().domain`); when the host has no strict public-suffix match the
tldts defaults (`domain || ''` etc.) apply.  The exception-only manual
fallback arm of the source is not modelled: the spec requires it never
to be used in the primary code path. -/
def toComponents (v : Str) : UrlComponents :=
  let host := v.takeWhile (· ≠ '/')
  let path := v.dropWhile (· ≠ '/')
  let labels := splitOnChar '.' host
  match findPublicSuffix labels with
  | some ps =>
    if ps.length < labels.length then
      let pre := labels.take (labels.length - ps.length - 1)
      { domain := joinLabels (labels.drop (labels.length - ps.length - 1)),
        publicSuffix := joinLabels ps,
        subdomain := if pre.isEmpty then none else some (joinLabels pre),
        path := path }
    else
      { domain := [], publicSuffix := joinLabels ps, subdomain := none, path := path }
  | none => { domain := [], publicSuffix := [], subdomain := none, path := path }

/-- Embeds `IntentionScope` from `src/components/intention.ts`. -/
structure IntentionScope where
  domain : Str
  publicSuffix : Str
  subdomain : Option Str
  path : Str
  urlLength : Nat
  hasLanguageSuffix : Bool
  hasLanguageSubdomain : Bool
  hasLanguagePathStart : Bool
  originalUrl : Str
deriving DecidableEq

/-- Embeds `parseUrlToScope` from `src/components/intention.ts` (lines
137-162). -/
def parseUrlToScope (urlString : Str) : Option IntentionScope :=
  match parseUrlString urlString with
  | none => none
  | some parsedUrl =>
    let normalizedUrl := normalizeUrl parsedUrl
    let c := toComponents normalizedUrl
    some { domain := c.domain
           publicSuffix := c.publicSuffix
           subdomain := c.subdomain
           path := c.path
           urlLength := normalizedUrl.length
           hasLanguageSuffix := isLanguageSuffix c.publicSuffix
           hasLanguageSubdomain :=
             match c.subdomain with
             | some sub => isLanguageCode sub
             | none => false
           hasLanguagePathStart := (extractLanguageFromPath c.path).1.isSome
           originalUrl := urlString }

/-- Embeds `Intention` from `src/components/intention.ts`; UUIDs are
modelled as strings. -/
structure Intention where
  id : Str
  scope : IntentionScope
  phrase : Str
deriving DecidableEq

/-- Embeds `RawIntention` from `src/components/intention.ts`. -/
structure RawIntention where
  id : Str
  url : Str
  phrase : Str
deriving DecidableEq

/-- Embeds `parseIntention` (lines 179-189). -/
def parseIntention (raw : RawIntention) : Option Intention :=
  match parseUrlToScope raw.url with
  | none => none
  | some scope => some { id := raw.id, scope := scope, phrase := raw.phrase }

/-- Embeds `createEmptyIntentionScope` (lines 362-374). -/
def createEmptyIntentionScope : IntentionScope :=
  { domain := [], publicSuffix := [], subdomain := none, path := [], urlLength := 0,
    hasLanguageSuffix := false, hasLanguageSubdomain := false,
    hasLanguagePathStart := false, originalUrl := [] }

/-- Step 1 of `matchesIntentionScopeIgnoringDomain` (lines 255-269): a
language-suffixed scope accepts any target suffix; otherwise the target
suffix must be a language suffix or equal the scope's suffix. -/
def suffixStep (intentionScope : IntentionScope) (targetSuffix : Str) : Bool :=
  if intentionScope.hasLanguageSuffix then true
  else if isLanguageSuffix targetSuffix then true
  else decide (targetSuffix = intentionScope.publicSuffix)

/-- Step 2 of `matchesIntentionScopeIgnoringDomain` (lines 271-302): a
language-subdomain scope accepts absent or language target subdomains; a
non-language-subdomain scope requires exact equality; a scope without a
subdomain accepts absent or language target subdomains. -/
def subdomainStep (intentionScope : IntentionScope) (targetSubdomain : Option Str) : Bool :=
  match intentionScope.subdomain with
  | some sub =>
    if intentionScope.hasLanguageSubdomain then
      match targetSubdomain with
      | some t => isLanguageCode t
      | none => true
    else decide (targetSubdomain = some sub)
  | none =>
    match targetSubdomain with
    | some t => isLanguageCode t
    | none => true

/-- Step 3 of `matchesIntentionScopeIgnoringDomain` (lines 304-329): an
empty scope path matches anything; otherwise try the verbatim prefix
test, then with a leading language segment stripped from the target
path, then with one stripped from the scope path. -/
def pathStep (scopePath targetPath : Str) : Bool :=
  if scopePath.isEmpty then true
  else if scopePath.isPrefixOf targetPath then true
  else if scopePath.isPrefixOf (extractLanguageFromPath targetPath).2 then true
  else if ((extractLanguageFromPath scopePath).2).isPrefixOf targetPath then true
  else false

/-- Embeds `matchesIntentionScopeIgnoringDomain` from
`src/components/intention.ts` (lines 244-330). -/
def matchesIntentionScopeIgnoringDomain (targetUrl : Str)
    (intentionScope : IntentionScope) : Bool :=
  match parseUrlString targetUrl with
  | none => false
  | some parsedUrl =>
    let targetParts := toComponents (normalizeUrl parsedUrl)
    suffixStep intentionScope targetParts.publicSuffix &&
    subdomainStep intentionScope targetParts.subdomain &&
    pathStep intentionScope.path targetParts.path

/-- Association-list lookup, modelling JS `Map.prototype.get`. -/
def assocGet {α β : Type} [DecidableEq α] (k : α) : List (α × β) → Option β
  | [] => none
  | (k', v) :: rest => if k' = k then some v else assocGet k rest

/-- Association-list update, modelling JS `Map.prototype.set` (replaces
in place, appends new keys at the end, preserving insertion order). -/
def assocSet {α β : Type} [DecidableEq α] (k : α) (v : β) : List (α × β) → List (α × β)
  | [] => [(k, v)]
  | (k', v') :: rest => if k' = k then (k, v) :: rest else (k', v') :: assocSet k v rest

/-- An index bucket entry, `{ scope, intention }` in the source. -/
abbrev IndexEntry := IntentionScope × Intention

/-- Embeds `IntentionIndex`: a JS `Map` from domain key to bucket,
modelled as an insertion-ordered association list. -/
abbrev IntentionIndex := List (Str × List IndexEntry)

/-- The index key of a scope: `scope.domain + '.' + scope.publicSuffix`. -/
def scopeKey (scope : IntentionScope) : Str :=
  scope.domain ++ '.' :: scope.publicSuffix

/-- Push an entry onto the bucket for a key, creating the bucket first
when absent (`createIntentionIndex` lines 225-229). -/
def bucketPush (idx : IntentionIndex) (k : Str) (e : IndexEntry) : IntentionIndex :=
  match assocGet k idx with
  | some b => assocSet k (b ++ [e]) idx
  | none => assocSet k [e] idx

/-- Insert before the first strictly-shorter entry (after all entries of
equal or greater length), so the resulting sort is stable. -/
def insertByUrlLengthDesc (e : IndexEntry) : List IndexEntry → List IndexEntry
  | [] => [e]
  | h :: t =>
    if e.1.urlLength > h.1.urlLength then e :: h :: t
    else h :: insertByUrlLengthDesc e t

/-- Stable sort by `urlLength` descending, modelling the source's
`sort((a, b) => b.scope.urlLength - a.scope.urlLength)` (stable per
ES2019). -/
def sortByUrlLengthDesc (l : List IndexEntry) : List IndexEntry :=
  l.foldl (fun acc e => insertByUrlLengthDesc e acc) []

/-- Embeds `createIntentionIndex` from `src/components/intention.ts`
(lines 215-238): group intentions by domain key, then sort each bucket
by `urlLength` descending. -/
def createIntentionIndex (intentions : List Intention) : IntentionIndex :=
  let base := intentions.foldl
    (fun idx i => bucketPush idx (scopeKey i.scope) (i.scope, i)) []
  base.map fun kv => (kv.1, sortByUrlLengthDesc kv.2)

/-- Embeds `lookupIntention` from `src/components/intention.ts` (lines
335-357): decompose the target, fetch its domain-key bucket, and return
the first entry whose scope matches. -/
def lookupIntention (targetUrl : Str) (intentionIndex : IntentionIndex) : Option Intention :=
  match parseUrlToScope targetUrl with
  | none => none
  | some targetScope =>
    match assocGet (scopeKey targetScope) intentionIndex with
    | none => none
    | some intentions =>
      (intentions.find? fun e => matchesIntentionScopeIgnoringDomain targetUrl e.1).map (·.2)

/-- Embeds `InactivityMode` from `src/components/storage.ts`. -/
inductive InactivityMode
  | off
  | all
  | allExceptAudio
deriving DecidableEq

/-- Embeds the background script's `SettingsCache` (`background.ts` lines
26-29). -/
structure SettingsCache where
  inactivityMode : InactivityMode
  inactivityTimeoutMs : Nat
deriving DecidableEq

/-- Keys of the extension's key-value store. -/
inductive StorageKey
  | intentions
  | fuzzyMatching
  | inactivityMode
  | inactivityTimeoutMinutes
  | showAdvancedSettings
  | inactivityTimeoutMs
deriving DecidableEq

/-- Values of the extension's key-value store. -/
inductive StorageValue
  | natV (n : Nat)
  | boolV (b : Bool)
  | modeV (m : InactivityMode)
  | listV (l : List RawIntention)
deriving DecidableEq

/-- Raw contents of `browser.storage.sync`. -/
abbrev StorageState := List (StorageKey × StorageValue)

/-- Model of `browser.storage.*.get(defaults)`: the result carries
exactly the requested keys, taking the stored value when present and
the given default otherwise. -/
def backendGet (store : StorageState) (defaults : StorageState) : StorageState :=
  defaults.map fun kv => (kv.1, (assocGet kv.1 store).getD kv.2)

/-- Embeds `storage.get` from `src/components/storage.ts` (lines 15-37):
requests `intentions`, `fuzzyMatching`, `inactivityMode`,
`inactivityTimeoutMinutes` and `showAdvancedSettings` with their
defaults.  `inactivityTimeoutMs` is not among the requested keys. -/
def storageGet (store : StorageState) : StorageState :=
  backendGet store
    [(StorageKey.intentions, StorageValue.listV []),
     (StorageKey.fuzzyMatching, StorageValue.boolV true),
     (StorageKey.inactivityMode, StorageValue.modeV InactivityMode.off),
     (StorageKey.inactivityTimeoutMinutes, StorageValue.natV 30),
     (StorageKey.showAdvancedSettings, StorageValue.boolV false)]

/-- Embeds `minutesToMs` from `src/components/time.ts`. -/
def minutesToMs (minutes : Nat) : Nat :=
  minutes * 60 * 1000

/-- Embeds the startup settings load of `background.ts` (lines 108-120):
destructure `inactivityMode` (defaulting to `'off'`) and
`inactivityTimeoutMs` (defaulting to `minutesToMs 30`) from the object
returned by `storage.get()`; a destructuring default applies exactly
when the key is absent from that object. -/
def loadSettingsCache (store : StorageState) : SettingsCache :=
  let res := storageGet store
  { inactivityMode :=
      match assocGet StorageKey.inactivityMode res with
      | some (StorageValue.modeV m) => m
      | _ => InactivityMode.off
    inactivityTimeoutMs :=
      match assocGet StorageKey.inactivityTimeoutMs res with
      | some (StorageValue.natV n) => n
      | _ => minutesToMs 30 }

/-- The `intentions` field of the `storage.get()` result. -/
def loadIntentions (store : StorageState) : List RawIntention :=
  match assocGet StorageKey.intentions (storageGet store) with
  | some (StorageValue.listV l) => l
  | _ => []

/-- In-memory state of the background engine: the per-tab URL cache, the
per-scope last-active map, the per-tab scope map, the settings snapshot
and the intention index. -/
structure EngineState where
  tabUrlMap : List (Nat × Str)
  lastActiveByScope : List (Str × Nat)
  intentionScopePerTabId : List (Nat × Str)
  settingsCache : SettingsCache
  intentionIndex : IntentionIndex
deriving DecidableEq

/-- Embeds background startup (lines 90-121): parse the stored intentions
(`mapNulls parseIntention`, i.e. map and drop failures, per the helpers
tests) into a fresh index and load the settings cache; the mutable maps
start empty. -/
def startupEngine (store : StorageState) : EngineState :=
  { tabUrlMap := []
    lastActiveByScope := []
    intentionScopePerTabId := []
    settingsCache := loadSettingsCache store
    intentionIndex := createIntentionIndex ((loadIntentions store).filterMap parseIntention) }

/-- Embeds `lookupIntentionScopeId` (lines 101-105); the scope id of an
intention is its UUID. -/
def lookupIntentionScopeId (index : IntentionIndex) (url : Str) : Option Str :=
  (lookupIntention url index).map (·.id)

/-- Embeds `shouldTriggerInactivity` (`background.ts` lines 69-87):
false when the mode is `'off'` or the scope has no recorded activity,
otherwise true iff `now - lastActive > timeoutMs`.  No part of this
check consults audio state. -/
def shouldTriggerInactivity (lastActiveByScope : List (Str × Nat))
    (intentionScopeId : Str) (mode : InactivityMode) (timeoutMs : Nat) (now : Nat) : Bool :=
  if mode = InactivityMode.off then false
  else
    match assocGet intentionScopeId lastActiveByScope with
    | none => false
    | some lastActive => decide (now - lastActive > timeoutMs)

/-- Observable outcome of an engine event handler. -/
inductive EngineAction
  | noAction
  | redirectToIntentionPage (tabId : Nat) (target : Str) (intentionScopeId : Str)
deriving DecidableEq

/-- Embeds the `tabs.onActivated` handler (`background.ts` lines
124-166): on focus, if the cached URL of the tab resolves to a tracked
scope, either redirect the tab to the intention page (parameterized with
the target URL and scope id) when `shouldTriggerInactivity` fires, or
refresh the scope's activity timestamp. -/
def onActivated (st : EngineState) (tabId : Nat) (now : Nat) : EngineAction × EngineState :=
  match assocGet tabId st.tabUrlMap with
  | none => (EngineAction.noAction, st)
  | some url =>
    match lookupIntentionScopeId st.intentionIndex url with
    | none => (EngineAction.noAction, st)
    | some intentionScopeId =>
      if shouldTriggerInactivity st.lastActiveByScope intentionScopeId
          st.settingsCache.inactivityMode st.settingsCache.inactivityTimeoutMs now then
        (EngineAction.redirectToIntentionPage tabId url intentionScopeId, st)
      else
        (EngineAction.noAction,
         { st with lastActiveByScope := assocSet intentionScopeId now st.lastActiveByScope })

/-- Embeds the `tabs.onUpdated` audible handler (`background.ts` lines
169-190): when a tab whose cached URL belongs to a scope *becomes*
audible, the scope's activity timestamp is refreshed; on any other
audible transition nothing changes.  This runs identically in every
inactivity mode. -/
def onAudibleChanged (st : EngineState) (tabId : Nat) (audible : Bool) (now : Nat) : EngineState :=
  match assocGet tabId st.tabUrlMap with
  | none => st
  | some url =>
    match lookupIntentionScopeId st.intentionIndex url with
    | none => st
    | some intentionScopeId =>
      if audible then
        { st with lastActiveByScope := assocSet intentionScopeId now st.lastActiveByScope }
      else st

/-- Embeds the `webNavigation.onCommitted` handler (`background.ts`
lines 207-224) for the top-level frame: refresh the tab-URL cache and,
when the destination matches an intention, record the tab's scope and
mark activity. -/
def onCommitted (st : EngineState) (tabId : Nat) (url : Str) (now : Nat) : EngineState :=
  let st1 := { st with tabUrlMap := assocSet tabId url st.tabUrlMap }
  match lookupIntention url st1.intentionIndex with
  | none => st1
  | some matched =>
    { st1 with
      intentionScopePerTabId := assocSet tabId matched.id st1.intentionScopePerTabId
      lastActiveByScope := assocSet matched.id now st1.lastActiveByScope }

theorem jsTrim_eq_nil_iff (s : Str) :
    jsTrim s = [] ↔ ∀ a ∈ s, isJsWhitespace a = true := by
  unfold jsTrim
  rw [List.reverse_eq_nil_iff, List.dropWhile_eq_nil_iff]
  constructor
  · intro h a ha
    rcases List.mem_append.1
        ((List.takeWhile_append_dropWhile (p := isJsWhitespace) (l := s)) ▸ ha) with h1 | h2
    · exact List.mem_takeWhile_imp h1
    · exact h a (List.mem_reverse.2 h2)
  · intro h a ha
    exact h a ((List.dropWhile_sublist isJsWhitespace).subset (List.mem_reverse.1 ha))

theorem jsTrim_ne_nil_append (s t : Str) (h : jsTrim s ≠ []) : jsTrim (s ++ t) ≠ [] := by
  intro hcon
  apply h
  rw [jsTrim_eq_nil_iff] at hcon ⊢
  exact fun a ha => hcon a (List.mem_append.2 (Or.inl ha))

/-- Fuel irrelevance for the Damerau-Levenshtein dynamic program: any two
fuel values at least `i + j` give the same distance. -/
theorem dlFuel_congr (x y : Str) :
    ∀ f₁ f₂ i j, i + j ≤ f₁ → i + j ≤ f₂ →
      dlFuel x y f₁ i j = dlFuel x y f₂ i j := by
  intro f₁
  induction f₁ with
  | zero =>
    intro f₂ i j h1 _
    have hi : i = 0 := by omega
    have hj : j = 0 := by omega
    subst hi; subst hj
    cases f₂ <;> rfl
  | succ g ih =>
    intro f₂ i j h1 h2
    match i, j with
    | 0, j => cases f₂ <;> rfl
    | i+1, 0 => cases f₂ <;> rfl
    | i+1, j+1 =>
      match f₂, h2 with
      | g₂+1, _ =>
        show dlFuel x y (g+1) (i+1) (j+1) = dlFuel x y (g₂+1) (i+1) (j+1)
        simp only [dlFuel]
        rw [ih g₂ i (j+1) (by omega) (by omega), ih g₂ (i+1) j (by omega) (by omega),
          ih g₂ i j (by omega) (by omega), ih g₂ (i-1) (j-1) (by omega) (by omega)]

/-- The dynamic program at cell `(i, j)` only reads the first `i` characters
of `x` and the first `j` characters of `y`. -/
theorem dlFuel_append (x y z w : Str) :
    ∀ f i j, i ≤ x.length → j ≤ y.length →
      dlFuel (x ++ z) (y ++ w) f i j = dlFuel x y f i j := by
  intro f
  induction f with
  | zero =>
    intro i j _ _
    match i, j with
    | 0, j => rfl
    | i+1, 0 => rfl
    | i+1, j+1 => rfl
  | succ g ih =>
    intro i j hx hy
    match i, j with
    | 0, j => rfl
    | i+1, 0 => rfl
    | i+1, j+1 =>
      show dlFuel (x ++ z) (y ++ w) (g+1) (i+1) (j+1) = dlFuel x y (g+1) (i+1) (j+1)
      simp only [dlFuel]
      rw [ih i (j+1) (by omega) hy, ih (i+1) j hx (by omega), ih i j (by omega) (by omega),
        ih (i-1) (j-1) (by omega) (by omega),
        List.getElem?_append_left (by omega : i < x.length),
        List.getElem?_append_left (by omega : j < y.length),
        List.getElem?_append_left (by omega : j - 1 < y.length),
        List.getElem?_append_left (by omega : i - 1 < x.length)]

/-- Appending the same character to both strings never increases the
Damerau-Levenshtein distance. -/
theorem damerauLevenshtein_append_last_le (x y : Str) (c : Char) :
    damerauLevenshtein (x ++ [c]) (y ++ [c]) ≤ damerauLevenshtein x y := by
  unfold damerauLevenshtein
  have hx : (x ++ [c]).length = x.length + 1 := by simp
  have hy : (y ++ [c]).length = y.length + 1 := by simp
  rw [hx, hy]
  have hsum : x.length + 1 + (y.length + 1) = (x.length + y.length + 1) + 1 := by omega
  rw [hsum]
  show dlFuel (x ++ [c]) (y ++ [c]) ((x.length + y.length + 1)+1) (x.length+1) (y.length+1) ≤ _
  simp only [dlFuel]
  have hcx : (x ++ [c])[x.length]? = some c := List.getElem?_concat_length x c
  have hcy : (y ++ [c])[y.length]? = some c := List.getElem?_concat_length y c
  rw [hcx, hcy]
  simp only [if_pos rfl]
  have hdiag :
      dlFuel (x ++ [c]) (y ++ [c]) (x.length + y.length + 1) x.length y.length
        = dlFuel x y (x.length + y.length) x.length y.length := by
    rw [dlFuel_append x y [c] [c] _ _ _ (le_refl _) (le_refl _),
      dlFuel_congr x y _ _ _ _ (by omega) (le_refl _)]
  have hbase :
      Nat.min (dlFuel (x ++ [c]) (y ++ [c]) (x.length + y.length + 1) x.length (y.length+1) + 1)
        (Nat.min (dlFuel (x ++ [c]) (y ++ [c]) (x.length + y.length + 1) (x.length+1) y.length + 1)
          (dlFuel (x ++ [c]) (y ++ [c]) (x.length + y.length + 1) x.length y.length + 0))
        ≤ dlFuel x y (x.length + y.length) x.length y.length := by
    calc _ ≤ dlFuel (x ++ [c]) (y ++ [c]) (x.length + y.length + 1) x.length y.length + 0 :=
            le_trans (Nat.min_le_right _ _) (Nat.min_le_right _ _)
      _ = _ := by rw [Nat.add_zero, hdiag]
  split
  · exact le_trans (Nat.min_le_left _ _) hbase
  · exact hbase

/-! Character-level helper lemmas. -/

theorem toLower_def (c : Char) :
    c.toLower = if 65 ≤ c.toNat ∧ c.toNat ≤ 90 then Char.ofNat (c.toNat + 32) else c := rfl

theorem toLower_fix_of_not_upper (c : Char) (h : ¬(65 ≤ c.toNat ∧ c.toNat ≤ 90)) :
    c.toLower = c := by
  rw [toLower_def, if_neg h]

theorem toNat_ofNat_shift (n : Nat) (h1 : 65 ≤ n) (h2 : n ≤ 90) :
    (Char.ofNat (n + 32)).toNat = n + 32 := by
  have hv : (n + 32).isValidChar := Or.inl (by omega)
  rw [Char.ofNat, dif_pos hv]
  rfl

theorem toLower_cases (c : Char) :
    c.toLower = c ∨ (97 ≤ c.toLower.toNat ∧ c.toLower.toNat ≤ 122) := by
  by_cases h : 65 ≤ c.toNat ∧ c.toNat ≤ 90
  · right
    rw [toLower_def, if_pos h, toNat_ofNat_shift c.toNat h.1 h.2]
    omega
  · left
    exact toLower_fix_of_not_upper c h

theorem toLower_toLower (c : Char) : c.toLower.toLower = c.toLower := by
  rcases toLower_cases c with h | h
  · rw [h, h]
  · exact toLower_fix_of_not_upper _ (by omega)

theorem ws_toNat (c : Char) (h : isJsWhitespace c = true) :
    c.toNat = 32 ∨ c.toNat = 9 ∨ c.toNat = 10 ∨ c.toNat = 13 ∨ c.toNat = 11 ∨
    c.toNat = 12 ∨ c.toNat = 160 ∨ c.toNat = 65279 := by
  simp only [isJsWhitespace, Bool.or_eq_true, decide_eq_true_eq] at h
  rcases h with ((((((h | h) | h) | h) | h) | h) | h) | h <;> subst h <;> simp

theorem isJsWhitespace_toLower (c : Char) (h : isJsWhitespace c = false) :
    isJsWhitespace c.toLower = false := by
  rcases toLower_cases c with hc | hc
  · rw [hc]; exact h
  · by_contra hcon
    have := ws_toNat c.toLower (by revert hcon; cases isJsWhitespace c.toLower <;> simp)
    omega

theorem toLower_ne_of_low (c d : Char) (hd : d.toNat < 65) (h : c ≠ d) : c.toLower ≠ d := by
  rcases toLower_cases c with hc | hc
  · rw [hc]; exact h
  · intro hcon
    rw [hcon] at hc
    omega

theorem isLower_toNat (c : Char) (h : c.isLower = true) :
    97 ≤ c.toNat ∧ c.toNat ≤ 122 := by
  simp only [Char.isLower, Bool.and_eq_true, decide_eq_true_eq] at h
  exact ⟨UInt32.le_toNat_of_le (by norm_num) h.1, UInt32.toNat_le_of_le (by norm_num) h.2⟩

theorem isDigit_toNat (c : Char) (h : c.isDigit = true) :
    48 ≤ c.toNat ∧ c.toNat ≤ 57 := by
  simp only [Char.isDigit, Bool.and_eq_true, decide_eq_true_eq] at h
  exact ⟨UInt32.le_toNat_of_le (by norm_num) h.1, UInt32.toNat_le_of_le (by norm_num) h.2⟩

theorem isHostChar_cases (c : Char) (h : isHostChar c = true) :
    (97 ≤ c.toNat ∧ c.toNat ≤ 122) ∨ (48 ≤ c.toNat ∧ c.toNat ≤ 57) ∨
    c = '-' ∨ c = '.' := by
  simp only [isHostChar, Bool.or_eq_true, decide_eq_true_eq] at h
  rcases h with ((h | h) | h) | h
  · exact Or.inl (isLower_toNat c h)
  · exact Or.inr (Or.inl (isDigit_toNat c h))
  · exact Or.inr (Or.inr (Or.inl h))
  · exact Or.inr (Or.inr (Or.inr h))

theorem isHostChar_toLower_fix (c : Char) (h : isHostChar c = true) : c.toLower = c := by
  rcases isHostChar_cases c h with hc | hc | hc | hc
  · exact toLower_fix_of_not_upper c (by omega)
  · exact toLower_fix_of_not_upper c (by omega)
  · subst hc; rfl
  · subst hc; rfl

theorem isHostChar_not_ws (c : Char) (h : isHostChar c = true) :
    isJsWhitespace c = false := by
  by_contra hcon
  have hws := ws_toNat c (by revert hcon; cases isJsWhitespace c <;> simp)
  rcases isHostChar_cases c h with hc | hc | hc | hc
  · omega
  · omega
  · subst hc; exact absurd hws (by decide)
  · subst hc; exact absurd hws (by decide)

theorem isHostChar_not_delim (c : Char) (h : isHostChar c = true) :
    c ≠ '/' ∧ c ≠ '?' ∧ c ≠ '#' := by
  refine ⟨?_, ?_, ?_⟩ <;> rintro rfl <;> simp [isHostChar] at h

/-! List-level helper lemmas. -/

theorem map_fix {f : Char → Char} {l : Str} (h : ∀ c ∈ l, f c = c) : l.map f = l := by
  induction l with
  | nil => rfl
  | cons a t ih => simp [h a (by simp), ih fun c hc => h c (by simp [hc])]

theorem head?_dropWhile_false {p : Char → Bool} :
    ∀ {l : Str} {c : Char}, (l.dropWhile p).head? = some c → p c = false := by
  intro l
  induction l with
  | nil => intro c h; simp [List.dropWhile] at h
  | cons a t ih =>
    intro c h
    rw [List.dropWhile_cons] at h
    split at h
    · exact ih h
    · next hpa =>
      simp only [List.head?_cons, Option.some.injEq] at h
      subst h
      simpa using hpa

theorem mem_of_head_eq {l : Str} {c : Char} (h : l.head? = some c) : c ∈ l := by
  cases l with
  | nil => simp at h
  | cons a t =>
    simp only [List.head?_cons, Option.some.injEq] at h
    simp [h]

theorem takeWhile_dropWhile_append {p : Char → Bool} {b : Str}
    (hb : ∀ c, b.head? = some c → p c = false) :
    ∀ a : Str, (∀ c ∈ a, p c = true) →
      (a ++ b).takeWhile p = a ∧ (a ++ b).dropWhile p = b := by
  intro a
  induction a with
  | nil =>
    intro _
    simp only [List.nil_append]
    cases b with
    | nil => simp
    | cons x xs =>
      have hx : p x = false := hb x rfl
      simp [List.takeWhile_cons, List.dropWhile_cons, hx]
  | cons y ys ih =>
    intro ha
    have hy : p y = true := ha y (by simp)
    have ih' := ih fun c hc => ha c (by simp [hc])
    simp [List.takeWhile_cons, List.dropWhile_cons, hy, ih'.1, ih'.2]

theorem takeWhile_eq_self {p : Char → Bool} {l : Str} (h : ∀ c ∈ l, p c = true) :
    l.takeWhile p = l :=
  List.takeWhile_eq_self_iff.mpr h

theorem dropWhile_eq_self {p : Char → Bool} {l : Str}
    (h : ∀ c, l.head? = some c → p c = false) : l.dropWhile p = l := by
  cases l with
  | nil => rfl
  | cons a t => simp [List.dropWhile_cons, h a rfl]

theorem jsTrim_eq_self {s : Str} (h : ∀ c ∈ s, isJsWhitespace c = false) :
    jsTrim s = s := by
  unfold jsTrim
  have h1 : s.dropWhile isJsWhitespace = s :=
    dropWhile_eq_self fun c hc => h c (mem_of_head_eq hc)
  rw [h1]
  have h2 : s.reverse.dropWhile isJsWhitespace = s.reverse :=
    dropWhile_eq_self fun c hc => h c (List.mem_reverse.1 (mem_of_head_eq hc))
  rw [h2, List.reverse_reverse]

theorem isPrefixOf_append_self (l t : Str) : l.isPrefixOf (l ++ t) = true := by
  induction l with
  | nil => simp
  | cons a l ih => simp [List.cons_append, List.isPrefixOf, ih]

theorem isPrefixOf_refl (l : Str) : l.isPrefixOf l = true := by
  have h := isPrefixOf_append_self l []
  rw [List.append_nil] at h
  exact h

/-! Self-matching lemmas for the three steps of the matching algorithm. -/

theorem suffixStep_self (sc : IntentionScope) : suffixStep sc sc.publicSuffix = true := by
  unfold suffixStep
  split
  · rfl
  · split
    · rfl
    · simp

theorem subdomainStep_self (sc : IntentionScope)
    (h : sc.hasLanguageSubdomain =
      (match sc.subdomain with
       | some d => isLanguageCode d
       | none => false)) :
    subdomainStep sc sc.subdomain = true := by
  rcases hsub : sc.subdomain with _ | d
  · simp [subdomainStep, hsub]
  · rw [hsub] at h
    by_cases hd : isLanguageCode d = true
    · simp [subdomainStep, hsub, h, hd]
    · simp only [Bool.not_eq_true] at hd
      simp [subdomainStep, hsub, h, hd]

theorem pathStep_self (p : Str) : pathStep p p = true := by
  unfold pathStep
  split
  · rfl
  · simp [isPrefixOf_refl]

/-- C10: for every expected phrase and every `maxDistance`, a
whitespace-only input (including the empty string) is rejected by both
`fuzzyMatch` and `fuzzyPartialMatch`; likewise every input is rejected
when the expected phrase is whitespace-only. -/
theorem fuzzy_whitespace_rejection (input expected : Str) (maxDistance : Nat) :
    (input.all isJsWhitespace = true →
      fuzzyMatch input expected maxDistance = false ∧
      fuzzyPartialMatch input expected maxDistance = false) ∧
    (expected.all isJsWhitespace = true →
      fuzzyMatch input expected maxDistance = false ∧
      fuzzyPartialMatch input expected maxDistance = false) := by
  constructor
  · intro h
    have h' : jsTrim input = [] :=
      (jsTrim_eq_nil_iff input).2 (by simpa [List.all_eq_true] using h)
    constructor <;> simp [fuzzyMatch, fuzzyPartialMatch, h']
  · intro h
    have h' : jsTrim expected = [] :=
      (jsTrim_eq_nil_iff expected).2 (by simpa [List.all_eq_true] using h)
    constructor <;> simp [fuzzyMatch, fuzzyPartialMatch, h']

/-- Witness for C10 at concrete inputs: a spaces-only input is rejected
even with a huge allowed distance, and a whitespace-only expected phrase
rejects every input. -/
theorem fuzzy_whitespace_rejection_witness :
    fuzzyMatch (str "   ") (str "hello there") 1000 = false ∧
    fuzzyPartialMatch (str "   ") (str "hello there") 1000 = false ∧
    fuzzyMatch (str "abc") (str " ") 9 = false ∧
    fuzzyPartialMatch (str "abc") (str " ") 9 = false := by
  refine ⟨?_, ?_, ?_, ?_⟩
  · exact ((fuzzy_whitespace_rejection (str "   ") (str "hello there") 1000).1 (by decide)).1
  · exact ((fuzzy_whitespace_rejection (str "   ") (str "hello there") 1000).1 (by decide)).2
  · exact ((fuzzy_whitespace_rejection (str "abc") (str " ") 9).2 (by decide)).1
  · exact ((fuzzy_whitespace_rejection (str "abc") (str " ") 9).2 (by decide)).2

/-- C8: monotonicity of the partial fuzzy match — if an input of length
`n` is accepted against an expected phrase and `n` is less than the
phrase's length, then appending the phrase's `(n+1)`-th character to the
input yields an input that is still accepted, for every `maxDistance`. -/
theorem fuzzyPartialMatch_monotone (input expected : Str) (maxDistance : Nat) (c : Char)
    (hacc : fuzzyPartialMatch input expected maxDistance = true)
    (hc : expected[input.length]? = some c) :
    fuzzyPartialMatch (input ++ [c]) expected maxDistance = true := by
  unfold fuzzyPartialMatch at hacc ⊢
  split at hacc
  · exact absurd hacc (by simp)
  · next hcond =>
    simp only [Bool.or_eq_true, List.isEmpty_iff, not_or] at hcond
    have hdist : damerauLevenshtein input (expected.take input.length) ≤ maxDistance :=
      of_decide_eq_true hacc
    have hine : jsTrim (input ++ [c]) ≠ [] := jsTrim_ne_nil_append input [c] hcond.1
    rw [if_neg (by simp only [Bool.or_eq_true, List.isEmpty_iff, not_or]; exact ⟨hine, hcond.2⟩)]
    apply decide_eq_true
    have hlen : (input ++ [c]).length = input.length + 1 := by simp
    rw [hlen, List.take_succ, hc]
    exact le_trans (damerauLevenshtein_append_last_le input (expected.take input.length) c) hdist

/-- Witness for C8 at a concrete input: `"chue"` partially matches
`"checking"` within distance 2, and appending the next expected
character `'k'` still matches. -/
theorem fuzzyPartialMatch_monotone_witness :
    fuzzyPartialMatch (str "chue") (str "checking") 2 = true ∧
    fuzzyPartialMatch (str "chue" ++ ['k']) (str "checking") 2 = true := by
  constructor
  · decide
  · exact fuzzyPartialMatch_monotone (str "chue") (str "checking") 2 'k' (by decide) (by decide)

/-- C4: the path step of scope matching — an empty scope path matches
any target path; a non-empty scope path matches exactly when the target
path starts with it verbatim, or the target path with one leading
language segment stripped starts with it, or the unmodified target path
starts with the scope path with one leading language segment stripped;
and in particular, for any scope path `p` and any suffix `e`, a target
with path `p ++ "/" ++ e` matches. -/
theorem pathStep_characterization (scopePath targetPath extra : Str) :
    pathStep [] targetPath = true ∧
    pathStep scopePath (scopePath ++ '/' :: extra) = true ∧
    (pathStep scopePath targetPath = true ↔
      (scopePath = [] ∨
       scopePath.isPrefixOf targetPath = true ∨
       scopePath.isPrefixOf (extractLanguageFromPath targetPath).2 = true ∨
       ((extractLanguageFromPath scopePath).2).isPrefixOf targetPath = true)) := by
  refine ⟨rfl, ?_, ?_⟩
  · by_cases h0 : scopePath.isEmpty
    · simp [pathStep, h0]
    · simp [pathStep, h0, isPrefixOf_append_self]
  · by_cases h0 : scopePath.isEmpty
    · simp [pathStep, h0, List.isEmpty_iff.1 h0]
    · have h0' : scopePath ≠ [] := by simpa [List.isEmpty_iff] using h0
      by_cases h1 : scopePath.isPrefixOf targetPath = true
      · simp [pathStep, h0, h1]
      · by_cases h2 : scopePath.isPrefixOf (extractLanguageFromPath targetPath).2 = true
        · simp [pathStep, h0, h1, h2]
        · by_cases h3 : ((extractLanguageFromPath scopePath).2).isPrefixOf targetPath = true
          · simp [pathStep, h0, h1, h2, h3]
          · simp [pathStep, h0, h0', h1, h2, h3]

/-- C7: for every scope without a subdomain, the subdomain step accepts
exactly the targets with no subdomain or a language-code subdomain; in
particular, for the scope built from `https://facebook.com`, the targets
`https://www.facebook.com` and `https://sv.facebook.com` match and
`https://cdn.facebook.com` does not. -/
theorem subdomain_tolerance (intentionScope : IntentionScope) (targetSubdomain : Option Str)
    (h : intentionScope.subdomain = none) :
    subdomainStep intentionScope targetSubdomain =
      (match targetSubdomain with
       | some t => isLanguageCode t
       | none => true) ∧
    (matchesIntentionScopeIgnoringDomain (str "https://www.facebook.com")
        ((parseUrlToScope (str "https://facebook.com")).getD createEmptyIntentionScope) = true ∧
     matchesIntentionScopeIgnoringDomain (str "https://sv.facebook.com")
        ((parseUrlToScope (str "https://facebook.com")).getD createEmptyIntentionScope) = true ∧
     matchesIntentionScopeIgnoringDomain (str "https://cdn.facebook.com")
        ((parseUrlToScope (str "https://facebook.com")).getD createEmptyIntentionScope) = false) := by
  constructor
  · simp [subdomainStep, h]
  · refine ⟨by decide, by decide, by decide⟩

/-- Witness for C7 at concrete inputs: the scope of `https://facebook.com`
has no subdomain, the step accepts the language subdomain `sv`, rejects
`cdn`, and the three full-match facts hold. -/
theorem subdomain_tolerance_witness :
    subdomainStep ((parseUrlToScope (str "https://facebook.com")).getD createEmptyIntentionScope)
        (some (str "sv")) = isLanguageCode (str "sv") ∧
    subdomainStep ((parseUrlToScope (str "https://facebook.com")).getD createEmptyIntentionScope)
        (some (str "cdn")) = isLanguageCode (str "cdn") ∧
    matchesIntentionScopeIgnoringDomain (str "https://sv.facebook.com")
        ((parseUrlToScope (str "https://facebook.com")).getD createEmptyIntentionScope) = true ∧
    matchesIntentionScopeIgnoringDomain (str "https://cdn.facebook.com")
        ((parseUrlToScope (str "https://facebook.com")).getD createEmptyIntentionScope) = false := by
  have hsc := subdomain_tolerance
    ((parseUrlToScope (str "https://facebook.com")).getD createEmptyIntentionScope)
  refine ⟨?_, ?_, ?_, ?_⟩
  · exact (hsc (some (str "sv")) (by decide)).1
  · exact (hsc (some (str "cdn")) (by decide)).1
  · exact (hsc (some (str "cdn")) (by decide)).2.2.1
  · exact (hsc (some (str "cdn")) (by decide)).2.2.2

set_option maxHeartbeats 2000000 in
/-- C6: self-match — whenever `parseUrlToScope` turns a URL string into a
scope, matching that same URL string against the scope succeeds, and
looking the URL up in an index built from a single intention carrying
that scope returns that intention. -/
theorem self_match (u : Str) (s : IntentionScope) (h : parseUrlToScope u = some s) :
    matchesIntentionScopeIgnoringDomain u s = true ∧
    ∀ id phrase : Str,
      lookupIntention u (createIntentionIndex [{ id := id, scope := s, phrase := phrase }]) =
        some { id := id, scope := s, phrase := phrase } := by
  cases hp : parseUrlString u with
  | none => rw [parseUrlToScope, hp] at h; exact absurd h (by simp)
  | some pu =>
    rw [parseUrlToScope, hp] at h
    simp only [Option.some.injEq] at h
    subst h
    have hmatch : matchesIntentionScopeIgnoringDomain u
        { domain := (toComponents (normalizeUrl pu)).domain
          publicSuffix := (toComponents (normalizeUrl pu)).publicSuffix
          subdomain := (toComponents (normalizeUrl pu)).subdomain
          path := (toComponents (normalizeUrl pu)).path
          urlLength := (normalizeUrl pu).length
          hasLanguageSuffix := isLanguageSuffix (toComponents (normalizeUrl pu)).publicSuffix
          hasLanguageSubdomain :=
            match (toComponents (normalizeUrl pu)).subdomain with
            | some sub => isLanguageCode sub
            | none => false
          hasLanguagePathStart :=
            (extractLanguageFromPath (toComponents (normalizeUrl pu)).path).1.isSome
          originalUrl := u } = true := by
      rw [matchesIntentionScopeIgnoringDomain, hp]
      rw [Bool.and_eq_true, Bool.and_eq_true]
      exact ⟨⟨suffixStep_self _, subdomainStep_self _ rfl⟩, pathStep_self _⟩
    refine ⟨hmatch, ?_⟩
    intro id phrase
    have hpts : parseUrlToScope u = some
        { domain := (toComponents (normalizeUrl pu)).domain
          publicSuffix := (toComponents (normalizeUrl pu)).publicSuffix
          subdomain := (toComponents (normalizeUrl pu)).subdomain
          path := (toComponents (normalizeUrl pu)).path
          urlLength := (normalizeUrl pu).length
          hasLanguageSuffix := isLanguageSuffix (toComponents (normalizeUrl pu)).publicSuffix
          hasLanguageSubdomain :=
            match (toComponents (normalizeUrl pu)).subdomain with
            | some sub => isLanguageCode sub
            | none => false
          hasLanguagePathStart :=
            (extractLanguageFromPath (toComponents (normalizeUrl pu)).path).1.isSome
          originalUrl := u } := by rw [parseUrlToScope, hp]
    simp only [lookupIntention, hpts]
    simp only [createIntentionIndex, List.foldl_cons, List.foldl_nil, bucketPush,
      assocGet, assocSet, List.map_cons, List.map_nil, sortByUrlLengthDesc,
      insertByUrlLengthDesc]
    simp only [if_true]
    simp only [List.find?]
    rw [hmatch]
    rfl

/-- Witness for C6 at a concrete input: `https://facebook.com/groups`
parses to a scope, matches itself, and a single-intention index resolves
it back. -/
theorem self_match_witness :
    matchesIntentionScopeIgnoringDomain (str "https://facebook.com/groups")
      ((parseUrlToScope (str "https://facebook.com/groups")).getD createEmptyIntentionScope)
        = true ∧
    lookupIntention (str "https://facebook.com/groups")
      (createIntentionIndex
        [{ id := str "w"
           scope := (parseUrlToScope (str "https://facebook.com/groups")).getD
             createEmptyIntentionScope
           phrase := str "p" }]) =
      some { id := str "w"
             scope := (parseUrlToScope (str "https://facebook.com/groups")).getD
               createEmptyIntentionScope
             phrase := str "p" } := by
  have h := self_match (str "https://facebook.com/groups")
    ((parseUrlToScope (str "https://facebook.com/groups")).getD createEmptyIntentionScope)
    (by decide)
  exact ⟨h.1, h.2 (str "w") (str "p")⟩


/-- C1 counterexample: for the intention authored as
`https://facebook.se`, looking up `https://facebook.com` in the index
built from it returns nothing, although the intention is present in the
index (the same-suffix lookup succeeds) — refuting the claim that
`lookupIntention` succeeds for all three suffixes. -/
theorem language_suffix_lookup_counterexample :
    (lookupIntention (str "https://facebook.se")
      (createIntentionIndex
        (([{ id := str "i1", url := str "https://facebook.se", phrase := str "p" }] :
            List RawIntention).filterMap parseIntention))).map (fun i => i.phrase)
      = some (str "p") ∧
    lookupIntention (str "https://facebook.com")
      (createIntentionIndex
        (([{ id := str "i1", url := str "https://facebook.se", phrase := str "p" }] :
            List RawIntention).filterMap parseIntention)) = none := by
  constructor
  · decide
  · decide

/-- C1 (amended): the matching algorithm alone accepts `.com`, `.de` and
`.se` targets against the `https://facebook.se` scope, but
`lookupIntention` returns the intention only for the same-suffix target:
the index key `domain + "." + publicSuffix` (where the tldts registrable
domain already contains the suffix) sends cross-suffix targets to a
different, absent bucket. -/
theorem language_suffix_matcher_vs_lookup :
    matchesIntentionScopeIgnoringDomain (str "https://facebook.com")
      ((parseUrlToScope (str "https://facebook.se")).getD createEmptyIntentionScope) = true ∧
    matchesIntentionScopeIgnoringDomain (str "https://facebook.de")
      ((parseUrlToScope (str "https://facebook.se")).getD createEmptyIntentionScope) = true ∧
    matchesIntentionScopeIgnoringDomain (str "https://facebook.se")
      ((parseUrlToScope (str "https://facebook.se")).getD createEmptyIntentionScope) = true ∧
    scopeKey ((parseUrlToScope (str "https://facebook.se")).getD createEmptyIntentionScope)
      = str "facebook.se.se" ∧
    scopeKey ((parseUrlToScope (str "https://facebook.com")).getD createEmptyIntentionScope)
      = str "facebook.com.com" ∧
    (lookupIntention (str "https://facebook.se")
      (createIntentionIndex
        (([{ id := str "i1", url := str "https://facebook.se", phrase := str "p" }] :
            List RawIntention).filterMap parseIntention))).map (fun i => i.id)
      = some (str "i1") ∧
    lookupIntention (str "https://facebook.com")
      (createIntentionIndex
        (([{ id := str "i1", url := str "https://facebook.se", phrase := str "p" }] :
            List RawIntention).filterMap parseIntention)) = none ∧
    lookupIntention (str "https://facebook.de")
      (createIntentionIndex
        (([{ id := str "i1", url := str "https://facebook.se", phrase := str "p" }] :
            List RawIntention).filterMap parseIntention)) = none := by
  refine ⟨?_, ?_, ?_, ?_, ?_, ?_, ?_, ?_⟩ <;> decide

theorem assocGet_nil {β : Type} (k : Str) : assocGet (β := β) k [] = none := rfl

theorem assocGet_cons_eq {β : Type} {k k' : Str} (v : β) (t : List (Str × β)) (h : k' = k) :
    assocGet k ((k', v) :: t) = some v := by
  simp [assocGet, h]

theorem parseIntention_eq (r : RawIntention) (s : IntentionScope)
    (h : parseUrlToScope r.url = some s) :
    parseIntention r = some { id := r.id, scope := s, phrase := r.phrase } := by
  simp [parseIntention, h]

/-- Lookup through a two-intention index whose scopes share the target's
domain key: the bucket is sorted by `urlLength` descending, so when the
second intention's scope is strictly longer and matches the target, both
insertion orders return the second intention. -/
theorem lookup_pair (target : Str) (tScope s1 s2 : IntentionScope) (i1 i2 : Intention)
    (hT : parseUrlToScope target = some tScope)
    (hs1 : i1.scope = s1) (hs2 : i2.scope = s2)
    (hk1 : scopeKey s1 = scopeKey tScope) (hk2 : scopeKey s2 = scopeKey tScope)
    (hlen : s1.urlLength < s2.urlLength)
    (hm2 : matchesIntentionScopeIgnoringDomain target s2 = true) :
    lookupIntention target (createIntentionIndex [i1, i2]) = some i2 ∧
    lookupIntention target (createIntentionIndex [i2, i1]) = some i2 := by
  have hgt : (s2.urlLength > s1.urlLength) = True := by
    simp only [gt_iff_lt, hlen]
  have hngt : (s1.urlLength > s2.urlLength) = False := by
    simp only [gt_iff_lt, eq_iff_iff, iff_false, not_lt]
    exact le_of_lt hlen
  constructor
  · simp only [lookupIntention, hT, createIntentionIndex, List.foldl_cons, List.foldl_nil,
      bucketPush, hs1, hs2, hk1, hk2, assocGet_nil, assocSet, List.map_cons, List.map_nil,
      sortByUrlLengthDesc, insertByUrlLengthDesc, assocGet_cons_eq _ _ rfl,
      List.singleton_append, hgt, if_true, if_false, List.find?, hm2]
    rfl
  · simp only [lookupIntention, hT, createIntentionIndex, List.foldl_cons, List.foldl_nil,
      bucketPush, hs1, hs2, hk1, hk2, assocGet_nil, assocSet, List.map_cons, List.map_nil,
      sortByUrlLengthDesc, insertByUrlLengthDesc, assocGet_cons_eq _ _ rfl,
      List.singleton_append, hngt, if_true, if_false, List.find?, hm2]
    rfl

/-- C5: specificity precedence — with intentions configured for
`https://facebook.com` and `https://facebook.com/groups`, looking up
`https://www.facebook.com/groups/123` returns the longer (more
specific) one, for both insertion orders and arbitrary identifiers and
phrases. -/
theorem specificity_precedence (id1 id2 p1 p2 : Str) (i1 i2 : Intention)
    (h1 : parseIntention { id := id1, url := str "https://facebook.com", phrase := p1 } = some i1)
    (h2 : parseIntention { id := id2, url := str "https://facebook.com/groups", phrase := p2 }
      = some i2) :
    lookupIntention (str "https://www.facebook.com/groups/123")
      (createIntentionIndex [i1, i2]) = some i2 ∧
    lookupIntention (str "https://www.facebook.com/groups/123")
      (createIntentionIndex [i2, i1]) = some i2 := by
  rw [parseIntention_eq _ ((parseUrlToScope (str "https://facebook.com")).getD
    createEmptyIntentionScope)
    (show parseUrlToScope (str "https://facebook.com")
      = some ((parseUrlToScope (str "https://facebook.com")).getD createEmptyIntentionScope)
      by decide)] at h1
  rw [parseIntention_eq _ ((parseUrlToScope (str "https://facebook.com/groups")).getD
    createEmptyIntentionScope)
    (show parseUrlToScope (str "https://facebook.com/groups")
      = some ((parseUrlToScope (str "https://facebook.com/groups")).getD
          createEmptyIntentionScope)
      by decide)] at h2
  have hi1 := Option.some.inj h1
  have hi2 := Option.some.inj h2
  subst hi1
  subst hi2
  exact lookup_pair (str "https://www.facebook.com/groups/123")
    ((parseUrlToScope (str "https://www.facebook.com/groups/123")).getD createEmptyIntentionScope)
    ((parseUrlToScope (str "https://facebook.com")).getD createEmptyIntentionScope)
    ((parseUrlToScope (str "https://facebook.com/groups")).getD createEmptyIntentionScope)
    _ _ (by decide) rfl rfl (by decide) (by decide) (by decide) (by decide)

/-- Witness for C5 at concrete identifiers and phrases. -/
theorem specificity_precedence_witness :
    lookupIntention (str "https://www.facebook.com/groups/123")
      (createIntentionIndex
        [{ id := str "a"
           scope := (parseUrlToScope (str "https://facebook.com")).getD createEmptyIntentionScope
           phrase := str "short" },
         { id := str "b"
           scope := (parseUrlToScope (str "https://facebook.com/groups")).getD
             createEmptyIntentionScope
           phrase := str "long" }]) =
      some { id := str "b"
             scope := (parseUrlToScope (str "https://facebook.com/groups")).getD
               createEmptyIntentionScope
             phrase := str "long" } := by
  have h := specificity_precedence (str "a") (str "b") (str "short") (str "long")
    { id := str "a"
      scope := (parseUrlToScope (str "https://facebook.com")).getD createEmptyIntentionScope
      phrase := str "short" }
    { id := str "b"
      scope := (parseUrlToScope (str "https://facebook.com/groups")).getD
        createEmptyIntentionScope
      phrase := str "long" }
    (by decide) (by decide)
  exact h.1


/-- C2: evaluation at the failing configuration.  With
`inactivityTimeoutMs = 3000` stored (the key the settings surface
writes) and mode `'all'`, the startup settings load still yields the
30-minute default, because `storage.get()` requests only
`inactivityTimeoutMinutes` from the backend and so its result never
carries `inactivityTimeoutMs`; a refocus 3501 ms after the scope's last
activity therefore does nothing, and the redirect fires only past the
default 1800000 ms — the stored configured value is not the timeout
compared against. -/
theorem inactivity_timeout_ignored :
    (startupEngine
      [(StorageKey.intentions,
          StorageValue.listV
            [{ id := str "id1", url := str "https://facebook.com", phrase := str "p" }]),
       (StorageKey.inactivityMode, StorageValue.modeV InactivityMode.all),
       (StorageKey.inactivityTimeoutMs, StorageValue.natV 3000)]).settingsCache.inactivityTimeoutMs
      = minutesToMs 30 ∧
    assocGet StorageKey.inactivityTimeoutMs
      (storageGet
        [(StorageKey.intentions,
            StorageValue.listV
              [{ id := str "id1", url := str "https://facebook.com", phrase := str "p" }]),
         (StorageKey.inactivityMode, StorageValue.modeV InactivityMode.all),
         (StorageKey.inactivityTimeoutMs, StorageValue.natV 3000)]) = none ∧
    (onActivated
      (onCommitted
        (startupEngine
          [(StorageKey.intentions,
              StorageValue.listV
                [{ id := str "id1", url := str "https://facebook.com", phrase := str "p" }]),
           (StorageKey.inactivityMode, StorageValue.modeV InactivityMode.all),
           (StorageKey.inactivityTimeoutMs, StorageValue.natV 3000)])
        7 (str "https://facebook.com") 0)
      7 3501).1 = EngineAction.noAction ∧
    (onActivated
      (onCommitted
        (startupEngine
          [(StorageKey.intentions,
              StorageValue.listV
                [{ id := str "id1", url := str "https://facebook.com", phrase := str "p" }]),
           (StorageKey.inactivityMode, StorageValue.modeV InactivityMode.all),
           (StorageKey.inactivityTimeoutMs, StorageValue.natV 3000)])
        7 (str "https://facebook.com") 0)
      7 1800001).1
      = EngineAction.redirectToIntentionPage 7 (str "https://facebook.com") (str "id1") := by
  refine ⟨?_, ?_, ?_, ?_⟩ <;> decide

/-- C3: the inactivity check is audio-blind — `shouldTriggerInactivity`
computes the same answer in mode `'all-except-audio'` as in mode
`'all'`, and a scope whose tab became audible at time 5 and is still
audible is nevertheless redirected on refocus once the timeout has
elapsed since that transition, refuting the claim that an audibly
playing scope is never re-triggered. -/
theorem audible_scope_retriggered :
    (∀ (lastActiveByScope : List (Str × Nat)) (intentionScopeId : Str) (timeoutMs now : Nat),
      shouldTriggerInactivity lastActiveByScope intentionScopeId
        InactivityMode.allExceptAudio timeoutMs now =
      shouldTriggerInactivity lastActiveByScope intentionScopeId
        InactivityMode.all timeoutMs now) ∧
    (onActivated
      (onAudibleChanged
        (onCommitted
          (startupEngine
            [(StorageKey.intentions,
                StorageValue.listV
                  [{ id := str "id1", url := str "https://facebook.com", phrase := str "p" }]),
             (StorageKey.inactivityMode, StorageValue.modeV InactivityMode.allExceptAudio),
             (StorageKey.inactivityTimeoutMs, StorageValue.natV 3000)])
          7 (str "https://facebook.com") 0)
        7 true 5)
      7 1800006).1
      = EngineAction.redirectToIntentionPage 7 (str "https://facebook.com") (str "id1") := by
  constructor
  · intro lastActiveByScope intentionScopeId timeoutMs now
    simp [shouldTriggerInactivity]
  · decide


/-! Helper lemmas about label splitting, the public-suffix fold, and the
normalizer's building blocks, used for the renormalization theorem. -/

theorem splitOnChar_ne_nil (sep : Char) (s : Str) : splitOnChar sep s ≠ [] := by
  cases s with
  | nil => simp [splitOnChar]
  | cons a rest =>
    simp only [splitOnChar]
    cases splitOnChar sep rest with
    | nil => simp
    | cons r rs =>
      dsimp only
      split <;> simp

theorem splitOnChar_not_mem (sep : Char) (s : Str) (h : sep ∉ s) : splitOnChar sep s = [s] := by
  induction s with
  | nil => rfl
  | cons a rest ih =>
    simp only [List.mem_cons, not_or] at h
    rw [splitOnChar, ih h.2]
    dsimp only
    rw [if_neg fun hh => h.1 hh.symm]

theorem pslStep_some {labels : List Str} {acc : Option (List Str)} {e : Str} {l : List Str}
    (hl : pslStep labels acc e = some l) :
    l = splitOnChar '.' e ∨ acc = some l := by
  cases acc with
  | none =>
    unfold pslStep at hl
    dsimp only at hl
    split at hl
    · simp only [Option.some.injEq] at hl
      exact Or.inl hl.symm
    · exact absurd hl (by simp)
  | some b =>
    unfold pslStep at hl
    dsimp only at hl
    split at hl
    · split at hl <;> simp only [Option.some.injEq] at hl
      · exact Or.inl hl.symm
      · exact Or.inr (by rw [hl])
    · exact Or.inr hl

theorem pslStep_inv (labels : List Str) :
    ∀ (entries : List Str) (acc : Option (List Str)),
      (∀ l, acc = some l → l ≠ []) →
      ∀ l, entries.foldl (pslStep labels) acc = some l → l ≠ [] := by
  intro entries
  induction entries with
  | nil => exact fun acc hacc l hl => hacc l hl
  | cons e es ih =>
    intro acc hacc l hl
    rw [List.foldl_cons] at hl
    refine ih _ ?_ l hl
    intro l' hl'
    rcases pslStep_some hl' with hcase | hcase
    · exact hcase ▸ splitOnChar_ne_nil '.' e
    · exact hacc l' hcase

theorem findPublicSuffix_ne_nil {labels ps : List Str}
    (h : findPublicSuffix labels = some ps) : ps ≠ [] :=
  pslStep_inv labels publicSuffixList none (by simp) ps h

theorem isValidPublicHost_parts {h : Str} (hv : isValidPublicHost h = true) :
    (∀ c ∈ h, isHostChar c = true) ∧ '.' ∈ h := by
  unfold isValidPublicHost at hv
  simp only [Bool.and_eq_true] at hv
  obtain ⟨⟨⟨⟨⟨hne, hall⟩, hhd⟩, hlast⟩, hdd⟩, hreg⟩ := hv
  refine ⟨fun c hc => (List.all_eq_true.mp hall) c hc, ?_⟩
  by_contra hdot
  rw [splitOnChar_not_mem '.' h hdot] at hreg
  cases hps : findPublicSuffix [h] with
  | none => rw [hps] at hreg; exact absurd hreg (by simp)
  | some ps =>
    rw [hps] at hreg
    have hlen : ps.length < 1 := by
      have := of_decide_eq_true hreg
      simpa using this
    have : ps = [] := List.length_eq_zero.mp (by omega)
    exact findPublicSuffix_ne_nil hps this

theorem stripWww_subset {h : Str} {c : Char} (hc : c ∈ stripWww h) : c ∈ h := by
  unfold stripWww at hc
  split at hc
  · exact List.mem_of_mem_drop hc
  · exact hc

theorem stripWww_dot {h : Str} (hdot : '.' ∈ h) : '.' ∈ stripWww h := by
  unfold stripWww
  split
  · next hcond =>
    simp only [Bool.and_eq_true] at hcond
    have hcontains := hcond.2
    simpa [List.contains] using hcontains
  · exact hdot

theorem stripWww_stripWww (h : Str) : stripWww (stripWww h) = stripWww h := by
  by_cases hc : ((str "www.").isPrefixOf h && !(str "www.").isPrefixOf (h.drop 4) &&
      (h.drop 4).contains '.') = true
  · have hout : stripWww h = h.drop 4 := by unfold stripWww; rw [if_pos hc]
    rw [hout]
    have hnp : (str "www.").isPrefixOf (h.drop 4) = false := by
      rw [Bool.and_eq_true, Bool.and_eq_true] at hc
      have hb := hc.1.2
      cases hval : (str "www.").isPrefixOf (h.drop 4)
      · rfl
      · rw [hval] at hb; exact absurd hb (by simp)
    have hng : ¬(((str "www.").isPrefixOf (h.drop 4) &&
        !(str "www.").isPrefixOf ((h.drop 4).drop 4) &&
        ((h.drop 4).drop 4).contains '.') = true) := by
      rw [Bool.and_eq_true, Bool.and_eq_true, hnp]
      rintro ⟨⟨hfalse, _⟩, _⟩
      exact absurd hfalse (by simp)
    unfold stripWww
    rw [if_neg hng]
  · have hout : stripWww h = h := by unfold stripWww; rw [if_neg hc]
    rw [hout, hout]

theorem dropTrailingSlashes_subset {s : Str} {c : Char} (h : c ∈ dropTrailingSlashes s) :
    c ∈ s := by
  unfold dropTrailingSlashes at h
  have h1 := List.mem_reverse.1 h
  have h2 := (List.dropWhile_sublist (fun c => decide (c = '/'))).subset h1
  exact List.mem_reverse.1 h2

theorem dropTrailingSlashes_idem (s : Str) :
    dropTrailingSlashes (dropTrailingSlashes s) = dropTrailingSlashes s := by
  unfold dropTrailingSlashes
  rw [List.reverse_reverse]
  congr 1
  exact dropWhile_eq_self fun c hc => head?_dropWhile_false hc

theorem dropTrailingSlashes_head (x : Char) (t : Str) :
    dropTrailingSlashes (x :: t) = [] ∨ (dropTrailingSlashes (x :: t)).head? = some x := by
  have hsuf : (x :: t).reverse.dropWhile (fun c => decide (c = '/')) <:+ (x :: t).reverse :=
    List.dropWhile_suffix _
  have hpre : dropTrailingSlashes (x :: t) <+: (x :: t) := by
    have := List.reverse_prefix.2 hsuf
    rw [List.reverse_reverse] at this
    exact this
  obtain ⟨r, hr⟩ := hpre
  cases hd : dropTrailingSlashes (x :: t) with
  | nil => exact Or.inl rfl
  | cons y ys =>
    right
    rw [hd, List.cons_append] at hr
    have hy : y = x := (List.cons.injEq _ _ _ _ ▸ hr).1
    simp [hy]


/-- Facts available about the result of a successful parse: the host is
a valid lowercase public hostname, and the path carries no whitespace,
no query/fragment characters, and starts with a slash when non-empty. -/
theorem parseUrlString_facts (s : Str) (pu : UrlObj) (h : parseUrlString s = some pu) :
    isValidPublicHost pu.host = true ∧
    pu.host.map Char.toLower = pu.host ∧
    (∀ c ∈ pu.path, isJsWhitespace c = false) ∧
    (∀ c ∈ pu.path, c ≠ '?' ∧ c ≠ '#') ∧
    (pu.path = [] ∨ pu.path.head? = some '/') := by
  unfold parseUrlString at h
  dsimp only at h
  split at h
  case isFalse => exact absurd h (by simp)
  case isTrue hcond =>
    rw [Option.some.injEq] at h
    subst h
    rw [Bool.and_eq_true] at hcond
    dsimp only
    have hvalid := hcond.1
    have hhostchars : ∀ c ∈ ((stripScheme (jsTrim s)).takeWhile
        fun c => !(c = '/' || c = '?' || c = '#')).map Char.toLower, isHostChar c = true :=
      (isValidPublicHost_parts hvalid).1
    refine ⟨hvalid, map_fix (fun c hc => isHostChar_toLower_fix c (hhostchars c hc)), ?_, ?_, ?_⟩
    · intro c hc
      have hall := List.all_eq_true.mp hcond.2 c hc
      simpa using hall
    · intro c hc
      have := List.mem_takeWhile_imp hc
      simp only [Bool.not_eq_true', Bool.or_eq_false_iff, decide_eq_false_iff_not] at this
      exact this
    · cases hrest : (stripScheme (jsTrim s)).dropWhile
        (fun c => !(c = '/' || c = '?' || c = '#')) with
      | nil => left; rfl
      | cons r rs =>
        have hr : (!(r = '/' || r = '?' || r = '#')) = false :=
          head?_dropWhile_false (by rw [hrest]; rfl)
        simp only [Bool.not_eq_false', Bool.or_eq_true, decide_eq_true_eq] at hr
        rcases hr with (hr | hr) | hr
        · right
          rw [hr, List.takeWhile_cons]
          simp
        · left
          rw [hr, List.takeWhile_cons]
          simp
        · left
          rw [hr, List.takeWhile_cons]
          simp

/-- A string made of a dotted hostname (whose characters are hostname
characters) followed by a path beginning with a slash can never start
with `http://` or `https://`, so `stripScheme` leaves it unchanged. -/
theorem stripScheme_eq_self {host rest : Str}
    (hchars : ∀ c ∈ host, isHostChar c = true) (hdot : '.' ∈ host)
    (hlow : (host ++ rest).map Char.toLower = host ++ rest) :
    stripScheme (host ++ rest) = host ++ rest := by
  have key : ∀ pre : Str, '.' ∉ pre → '/' ∈ pre →
      pre.isPrefixOf (host ++ rest) = false := by
    intro pre hpredot hpreslash
    cases hcon : pre.isPrefixOf (host ++ rest) with
    | false => rfl
    | true =>
      exfalso
      have hpre : pre <+: host ++ rest := List.isPrefixOf_iff_prefix.mp hcon
      obtain ⟨t, ht⟩ := hpre
      rcases List.append_eq_append_iff.mp ht with ⟨a', ha1, _⟩ | ⟨c', hc1, _⟩
      · have hslash : '/' ∈ host := ha1 ▸ List.mem_append.2 (Or.inl hpreslash)
        have := hchars '/' hslash
        simp [isHostChar] at this
      · exact hpredot (hc1 ▸ List.mem_append.2 (Or.inl hdot))
  unfold stripScheme
  rw [hlow, key (str "http://") (by decide) (by decide),
    key (str "https://") (by decide) (by decide)]
  simp

/-- Renormalizing an already-normalized string: parsing either fails (the
stripped host may no longer be registrable) or returns the same string. -/
theorem reparse_normalized (host path0 : Str)
    (hchars : ∀ c ∈ host, isHostChar c = true)
    (hdot : '.' ∈ host)
    (hww : stripWww host = host)
    (hPws : ∀ c ∈ path0, isJsWhitespace c = false)
    (hPlowfix : ∀ c ∈ path0, Char.toLower c = c)
    (hPq : ∀ c ∈ path0, (!(c = '?' || c = '#')) = true)
    (hPhead : path0 = [] ∨ path0.head? = some '/')
    (hPnt : dropTrailingSlashes path0 = path0) :
    normalizeUrlString (host ++ path0) = none ∨
    normalizeUrlString (host ++ path0) = some (host ++ path0) := by
  have hHlow : host.map Char.toLower = host :=
    map_fix fun c hc => isHostChar_toLower_fix c (hchars c hc)
  have hPlow : path0.map Char.toLower = path0 := map_fix hPlowfix
  have hvlow : (host ++ path0).map Char.toLower = host ++ path0 := by
    rw [List.map_append, hHlow, hPlow]
  have hvws : ∀ c ∈ host ++ path0, isJsWhitespace c = false := by
    intro c hc
    rcases List.mem_append.1 hc with hc | hc
    · exact isHostChar_not_ws c (hchars c hc)
    · exact hPws c hc
  have htrim : jsTrim (host ++ path0) = host ++ path0 := jsTrim_eq_self hvws
  have hscheme : stripScheme (host ++ path0) = host ++ path0 :=
    stripScheme_eq_self hchars hdot hvlow
  have hsplit := takeWhile_dropWhile_append
    (p := fun c => !(c = '/' || c = '?' || c = '#')) (b := path0)
    (by
      intro c hc
      rcases hPhead with hP | hP
      · rw [hP] at hc; exact absurd hc (by simp)
      · rw [hP, Option.some.injEq] at hc
        subst hc
        rfl)
    host
    (by
      intro c hc
      have hd := isHostChar_not_delim c (hchars c hc)
      simp [hd.1, hd.2.1, hd.2.2])
  have hptake : path0.takeWhile (fun c => !(c = '?' || c = '#')) = path0 :=
    takeWhile_eq_self hPq
  have hallP : (path0.all fun c => !isJsWhitespace c) = true :=
    List.all_eq_true.mpr fun c hc => by rw [hPws c hc]; rfl
  unfold normalizeUrlString parseUrlString
  dsimp only
  rw [htrim, hscheme, hsplit.1, hsplit.2, hptake, hHlow]
  by_cases hVH : isValidPublicHost host = true
  · right
    rw [if_pos (by rw [Bool.and_eq_true]; exact ⟨hVH, hallP⟩)]
    simp only [Option.map_some']
    unfold normalizeUrl
    dsimp only
    rw [hww, hPlow, hPnt]
  · left
    rw [if_neg (by rw [Bool.and_eq_true]; intro hcon; exact hVH hcon.1)]
    rfl

/-- C9 counterexample: `https://www.co.uk` resolves to a valid public
hostname (registrable domain `www.co.uk`) and normalizes to `co.uk`, but
renormalizing `co.uk` fails — it is a bare public suffix — so the
pipeline is not idempotent as claimed. -/
theorem normalize_idempotence_counterexample :
    normalizeUrlString (str "https://www.co.uk") = some (str "co.uk") ∧
    normalizeUrlString (str "co.uk") = none := by
  constructor <;> decide

/-- C9 (amended): renormalizing the output of the normalization pipeline
either fails (when stripping `www.` left a bare public suffix) or
returns exactly the same string; it never returns a different string. -/
theorem normalize_reapply (u v : Str) (h : normalizeUrlString u = some v) :
    normalizeUrlString v = none ∨ normalizeUrlString v = some v := by
  unfold normalizeUrlString at h
  cases hp : parseUrlString u with
  | none => rw [hp] at h; exact absurd h (by simp)
  | some pu =>
    rw [hp, Option.map_some', Option.some.injEq] at h
    obtain ⟨hvalid, hlowfix, hpws, hpqh, hphead⟩ := parseUrlString_facts u pu hp
    have hparts := isValidPublicHost_parts hvalid
    subst h
    have hnu : normalizeUrl pu
        = stripWww pu.host ++ dropTrailingSlashes (pu.path.map Char.toLower) := rfl
    rw [hnu]
    apply reparse_normalized
    · intro c hc
      exact hparts.1 c (stripWww_subset hc)
    · exact stripWww_dot hparts.2
    · exact stripWww_stripWww pu.host
    · intro c hc
      obtain ⟨c0, hc0, rfl⟩ := List.mem_map.1 (dropTrailingSlashes_subset hc)
      exact isJsWhitespace_toLower c0 (hpws c0 hc0)
    · intro c hc
      obtain ⟨c0, hc0, rfl⟩ := List.mem_map.1 (dropTrailingSlashes_subset hc)
      exact toLower_toLower c0
    · intro c hc
      obtain ⟨c0, hc0, rfl⟩ := List.mem_map.1 (dropTrailingSlashes_subset hc)
      have hq := hpqh c0 hc0
      have h1 : Char.toLower c0 ≠ '?' := toLower_ne_of_low c0 '?' (by decide) hq.1
      have h2 : Char.toLower c0 ≠ '#' := toLower_ne_of_low c0 '#' (by decide) hq.2
      simp [h1, h2]
    · rcases hphead with hP | hP
      · left
        rw [hP]
        rfl
      · cases hpath : pu.path with
        | nil => left; rfl
        | cons x t =>
          rw [hpath] at hP
          simp only [List.head?_cons, Option.some.injEq] at hP
          subst hP
          rw [List.map_cons]
          have hsl : Char.toLower '/' = '/' := rfl
          rw [hsl]
          exact dropTrailingSlashes_head '/' (t.map Char.toLower)
    · exact dropTrailingSlashes_idem _

/-- Witness for C9 (amended) at a concrete input: a URL with scheme,
`www`, mixed case and a trailing slash normalizes to
`facebook.com/groups`, and renormalizing is settled by the theorem. -/
theorem normalize_reapply_witness :
    normalizeUrlString (str "https://WWW.Facebook.com/Groups/")
      = some (str "facebook.com/groups") ∧
    (normalizeUrlString (str "facebook.com/groups") = none ∨
     normalizeUrlString (str "facebook.com/groups") = some (str "facebook.com/groups")) := by
  constructor
  · decide
  · exact normalize_reapply (str "https://WWW.Facebook.com/Groups/")
      (str "facebook.com/groups") (by decide)
end Intender
